import Mathlib

/-!
# Verification of the job-state coordinator (`scripts/state_manager.py`)

Shallow embedding of the coordinator: the `Status` enum, the persisted
manifest (`{"frameworks": {name: {"status": s, "path": p}}}`), and the five
commands `init`, `next`, `mark`, `status`, `reset-running`.

Modelling conventions:
* A Python dict in insertion order is a `List (String × _)`; dict key lookup
  is first-match association-list lookup, dict item assignment updates the
  entry in place, insertion of a fresh key appends.
* The Python `json` library is modelled at the value level: `json.loads`
  either raises `JSONDecodeError` (the `FileState.unparsable` case) or
  yields a structured `Json` value; `json.dumps` of a manifest dict yields
  the corresponding `Json` value (`manifestToJson`).
* Filesystem reads performed by the commands (`REPOS_DIR.iterdir()`,
  `fw_dir.exists()`) are passed in as explicit data (`List DirEntry`,
  `List String`); `sys.exit(1)` / an uncaught exception is a command that
  returns `false` without persisting.
-/

namespace StateManager

/-- The `Status(str, Enum)` of state_manager.py: the four job states. -/
inductive Status
  | pending
  | inProgress
  | completed
  | failed
deriving DecidableEq, Repr

/-- `Status.value`: the string each enum member carries. -/
def Status.value : Status → String
  | .pending => "pending"
  | .inProgress => "in_progress"
  | .completed => "completed"
  | .failed => "failed"

/-- `[s.value for s in Status]`, the list of recognized status strings. -/
def statusValues : List String :=
  [Status.pending.value, Status.inProgress.value, Status.completed.value,
   Status.failed.value]

/-- The per-framework record `{"status": ..., "path": ...}`. -/
structure FrameworkState where
  status : String
  path : String
deriving DecidableEq, Repr

/-- The `manifest["frameworks"]` dict: names to records, in insertion order. -/
abbrev Manifest := List (String × FrameworkState)

/-- Python dict key lookup `d[k]` / `k in d` on the frameworks dict. -/
def lookupFw : Manifest → String → Option FrameworkState
  | [], _ => none
  | p :: rest, k => if p.1 = k then some p.2 else lookupFw rest k

/-- `STATE_DIR = Path("forensics-output/.state")`. -/
def STATE_DIR : String := "forensics-output/.state"

/-- `MANIFEST_FILE = STATE_DIR / "manifest.json"`. -/
def MANIFEST_FILE : String := STATE_DIR ++ "/manifest.json"

/-- `REPOS_DIR = Path("repos")`. -/
def REPOS_DIR : String := "repos"

/-! ## The JSON value level -/

/-- A parsed JSON value, as `json.loads` returns it. -/
inductive Json
  | null
  | bool (b : Bool)
  | num (n : Int)
  | str (s : String)
  | arr (elems : List Json)
  | obj (fields : List (String × Json))

/-- Key lookup in a parsed JSON object's field list. -/
def jsonLookup : List (String × Json) → String → Option Json
  | [], _ => none
  | p :: rest, k => if p.1 = k then some p.2 else jsonLookup rest k

/-- `j[key]` on a JSON value: defined only when `j` is an object holding
the key (a Python `KeyError`/`TypeError` otherwise). -/
def Json.get (j : Json) (key : String) : Option Json :=
  match j with
  | .obj fields => jsonLookup fields key
  | _ => none

/-- `json.dumps` of one framework record, at the value level. -/
def entryToJson (d : FrameworkState) : Json :=
  .obj [("status", .str d.status), ("path", .str d.path)]

/-- `json.dumps(manifest)` at the value level: the persisted shape
`{"frameworks": {name: {"status": s, "path": p}}}`. -/
def manifestToJson (m : Manifest) : Json :=
  .obj [("frameworks", .obj (m.map fun p => (p.1, entryToJson p.2)))]

/-- Reading one framework record out of a parsed JSON value, as the
commands access it (`data["status"]`, `data["path"]`); `none` models the
exception a caller hits on a record of the wrong shape. -/
def readEntry (j : Json) : Option FrameworkState :=
  match j.get "status", j.get "path" with
  | some (.str s), some (.str p) => some ⟨s, p⟩
  | _, _ => none

/-- Reading the records of the `"frameworks"` object one by one, in
iteration order. -/
def readEntries : List (String × Json) → Option Manifest
  | [] => some []
  | (n, j) :: rest =>
      match readEntry j, readEntries rest with
      | some d, some m => some ((n, d) :: m)
      | _, _ => none

/-- Reading `manifest["frameworks"]` and its records out of a parsed JSON
value; `none` models the exception a caller hits on a value of the wrong
shape. -/
def readFrameworks (j : Json) : Option Manifest :=
  match j.get "frameworks" with
  | some (.obj fields) => readEntries fields
  | _ => none

/-! ## The manifest file -/

/-- The state of `MANIFEST_FILE` on disk: absent, present but not decodable
by `json.loads` (any byte content raising `JSONDecodeError`), or present and
parsed to a JSON value. -/
inductive FileState
  | missing
  | unparsable
  | parsed (j : Json)

/-- The empty manifest `{"frameworks": {}}` returned on a missing or
unparsable file. -/
def emptyManifestJson : Json := .obj [("frameworks", .obj [])]

/-- `get_manifest()` of state_manager.py: missing file and `JSONDecodeError`
both yield `{"frameworks": {}}`; otherwise the parsed value is returned
as is. -/
def get_manifest : FileState → Json
  | .missing => emptyManifestJson
  | .unparsable => emptyManifestJson
  | .parsed j => j

/-- `save_manifest(manifest)`: the file now parses to
`json.dumps(manifest)`. -/
def save_manifest (m : Manifest) : FileState :=
  .parsed (manifestToJson m)

/-- What a command sees of the file: `get_manifest()` followed by the
callers' `["frameworks"]` / `["status"]` / `["path"]` accesses. -/
def loadManifest (fs : FileState) : Option Manifest :=
  readFrameworks (get_manifest fs)

/-! ## `save_manifest` as filesystem operations (for its atomicity) -/

/-- One filesystem operation a command performs on the state directory. -/
inductive FsOp
  | mkdirParents (path : String)
  | writeText (path : String) (content : Json)
  | renameFile (src target : String)

/-- Whether an operation is a rename. -/
def FsOp.isRename : FsOp → Bool
  | .renameFile _ _ => true
  | _ => false

/-- The operations `save_manifest` performs, in order:
`STATE_DIR.mkdir(parents=True, exist_ok=True)` then
`MANIFEST_FILE.write_text(json.dumps(manifest, indent=2))`. -/
def save_manifest_ops (m : Manifest) : List FsOp :=
  [.mkdirParents STATE_DIR, .writeText MANIFEST_FILE (manifestToJson m)]

/-! ## The five operations -/

/-- One entry of `REPOS_DIR.iterdir()`: a child's name and whether it is a
directory. -/
structure DirEntry where
  name : String
  dir : Bool
deriving DecidableEq, Repr

/-- The record inserted for a newly discovered framework:
`{"status": Status.PENDING, "path": str(item)}`. -/
def newEntry (name : String) : FrameworkState :=
  { status := Status.pending.value, path := REPOS_DIR ++ "/" ++ name }

/-- The scan loop of `init_state`: for each item of the listing that is a
non-hidden directory and whose name is not yet a key of the frameworks
dict, insert it as pending. -/
def initScan : Manifest → List DirEntry → Manifest
  | m, [] => m
  | m, e :: rest =>
      if e.dir && !(e.name.startsWith ".") then
        if (lookupFw m e.name).isSome then initScan m rest
        else initScan (m ++ [(e.name, newEntry e.name)]) rest
      else initScan m rest

/-- The names the scan found (`found_frameworks`). -/
def scanNames (listing : List DirEntry) : List String :=
  (listing.filter fun e => e.dir && !(e.name.startsWith ".")).map fun e => e.name

/-- `existing - found_frameworks`: the names warned about (and kept). -/
def missingFrameworks (m : Manifest) (listing : List DirEntry) : List String :=
  (m.map Prod.fst).filter fun n => !(scanNames listing).contains n

/-- `get_next_batch`'s `pending` list: names whose record has status
`Status.PENDING`, in manifest iteration order. -/
def pendingNames : Manifest → List String
  | [] => []
  | (n, d) :: rest =>
      if d.status = Status.pending.value then n :: pendingNames rest
      else pendingNames rest

/-- Python's `xs[:n]` for an arbitrary int `n`: the first `n` elements when
`n ≥ 0`, all but the last `-n` elements when `n < 0`. -/
def pySliceTo (xs : List α) (n : Int) : List α :=
  if 0 ≤ n then xs.take n.toNat
  else xs.take (xs.length - (-n).toNat)

/-- `get_next_batch(limit)`: the pending names, then `pending[:limit]`. -/
def get_next_batch (m : Manifest) (limit : Int) : List String :=
  pySliceTo (pendingNames m) limit

/-- `manifest["frameworks"][framework]["status"] = status`: in-place update
of the named entry's status field. -/
def setStatus : Manifest → String → String → Manifest
  | [], _, _ => []
  | (n, d) :: rest, fw, st =>
      if n = fw then (n, { d with status := st }) :: rest
      else (n, d) :: setStatus rest fw st

/-- `mark_status(framework, status)` on a loaded manifest: error (exit 1)
when the name is not a key, error when the status string is not one of the
four values, otherwise the updated manifest to be saved. -/
def mark_status (m : Manifest) (framework status : String) :
    Except String Manifest :=
  if (lookupFw m framework).isNone then
    .error ("Framework " ++ framework ++ " not found in state.")
  else if !(statusValues.contains status) then
    .error ("Invalid status " ++ status)
  else
    .ok (setStatus m framework status)

/-- The loop of `reset_in_progress` on a loaded manifest, given the set of
per-framework output directories that exist (`fw_dir.exists()`): returns
the updated manifest, the count reported, and the directories removed by
`shutil.rmtree`, in iteration order. -/
def reset_in_progress : Manifest → List String → Manifest × Nat × List String
  | [], _ => ([], 0, [])
  | (n, d) :: rest, dirs =>
      let r := reset_in_progress rest dirs
      if d.status = Status.inProgress.value then
        ((n, { d with status := Status.pending.value }) :: r.1,
         r.2.1 + 1,
         if dirs.contains n then n :: r.2.2 else r.2.2)
      else ((n, d) :: r.1, r.2.1, r.2.2)

/-! ## The command layer: each command is load, mutate (or not), persist -/

/-- `init_state()` as a step on the file: `root = none` models a missing
`repos/` (`sys.exit(1)` before any write); a manifest file of the wrong
shape raises inside the scan before `save_manifest` is reached. `true`
means exit status 0. -/
def init_state (root : Option (List DirEntry)) (fs : FileState) :
    FileState × Bool :=
  match root with
  | none => (fs, false)
  | some listing =>
      match loadManifest fs with
      | none => (fs, false)
      | some m => (save_manifest (initScan m listing), true)

/-- The `next` command: loads, computes the batch, never saves. -/
def nextCmd (fs : FileState) (limit : Int) : FileState × List String :=
  match loadManifest fs with
  | none => (fs, [])
  | some m => (fs, get_next_batch m limit)

/-- The `mark` command: loads, validates, saves only on success. -/
def markCmd (fs : FileState) (framework status : String) :
    FileState × Bool :=
  match loadManifest fs with
  | none => (fs, false)
  | some m =>
      match mark_status m framework status with
      | .error _ => (fs, false)
      | .ok updated => (save_manifest updated, true)

/-- The `reset-running` command: loads, sweeps, saves. -/
def resetCmd (fs : FileState) (existingDirs : List String) :
    FileState × Bool :=
  match loadManifest fs with
  | none => (fs, false)
  | some m => (save_manifest (reset_in_progress m existingDirs).1, true)

/-- One CLI invocation of state_manager.py, with the filesystem facts it
reads passed as data. -/
inductive Cmd
  | init (root : Option (List DirEntry))
  | next (limit : Int)
  | mark (framework status : String)
  | showStatus
  | resetRunning (existingDirs : List String)

/-- The effect of one command on the manifest file (`status` and `next`
never write). -/
def step (fs : FileState) : Cmd → FileState
  | .init root => (init_state root fs).1
  | .next limit => (nextCmd fs limit).1
  | .mark fw st => (markCmd fs fw st).1
  | .showStatus => fs
  | .resetRunning dirs => (resetCmd fs dirs).1

/-- A sequence of CLI invocations. -/
def run : FileState → List Cmd → FileState
  | fs, [] => fs
  | fs, c :: cs => run (step fs c) cs

/-- Every record of the manifest carries one of the four status strings. -/
def validManifest (m : Manifest) : Prop :=
  ∀ p ∈ m, p.2.status ∈ statusValues

/-- Whatever a command can load from the file carries only the four
status strings. -/
def validFile (fs : FileState) : Prop :=
  ∀ m, loadManifest fs = some m → validManifest m

/-! ## Round trip of save and load -/

theorem readEntry_entryToJson (d : FrameworkState) :
    readEntry (entryToJson d) = some d := rfl

theorem readEntries_map_entryToJson (m : Manifest) :
    readEntries (m.map fun p => (p.1, entryToJson p.2)) = some m := by
  induction m with
  | nil => rfl
  | cons p rest ih => simp [readEntries, readEntry_entryToJson, ih]

theorem load_save (m : Manifest) :
    loadManifest (save_manifest m) = some m := by
  simp [loadManifest, save_manifest, get_manifest, readFrameworks, Json.get,
    jsonLookup, manifestToJson, readEntries_map_entryToJson]

/-- C8: saving a manifest with `save_manifest` and reloading it through
`get_manifest` and the callers' field accesses yields the identical
manifest: the same unit names, and for each unit the same status string
and the same path. -/
theorem c8_save_load_round_trip (m : Manifest) :
    loadManifest (save_manifest m) = some m :=
  load_save m

/-- C4: `get_manifest` on a missing state file, and on a state file whose
contents fail to decode (any such content is the `unparsable` case), returns
the empty manifest `{"frameworks": {}}` — zero units — rather than
propagating an error to the caller. -/
theorem c4_load_tolerates_missing_and_unparsable (fs : FileState)
    (h : fs = FileState.missing ∨ fs = FileState.unparsable) :
    get_manifest fs = emptyManifestJson ∧ loadManifest fs = some [] := by
  rcases h with h | h <;> subst h <;> exact ⟨rfl, rfl⟩

/-- Witness for C4 at the concrete input `FileState.missing`. -/
theorem c4_witness :
    get_manifest FileState.missing = emptyManifestJson ∧
      loadManifest FileState.missing = some ([] : Manifest) :=
  c4_load_tolerates_missing_and_unparsable FileState.missing (Or.inl rfl)

/-- A one-unit manifest, as `init` discovers `repos/a`. -/
def exampleManifestA : Manifest := [("a", newEntry "a")]

/-- C5 fails on the code: `save_manifest` performs a plain
`MANIFEST_FILE.write_text(...)` after `mkdir` — it writes the manifest file
in place, with no temporary file and no rename, so the write is not atomic
with respect to a concurrent `load`. Evaluated at a concrete manifest. -/
theorem c5_save_writes_in_place :
    save_manifest_ops exampleManifestA =
      [FsOp.mkdirParents STATE_DIR,
       FsOp.writeText MANIFEST_FILE (manifestToJson exampleManifestA)] ∧
    (save_manifest_ops exampleManifestA).all (fun op => !op.isRename) = true :=
  ⟨rfl, rfl⟩

/-! ## Discovery: `init` -/

theorem lookupFw_append (m ext : Manifest) (n : String) :
    lookupFw (m ++ ext) n =
      match lookupFw m n with
      | some d => some d
      | none => lookupFw ext n := by
  induction m with
  | nil => simp [lookupFw]
  | cons p rest ih =>
      by_cases h : p.1 = n <;> simp [lookupFw, h, ih]

theorem lookupFw_append_left (m ext : Manifest) (n : String)
    (d : FrameworkState) (h : lookupFw m n = some d) :
    lookupFw (m ++ ext) n = some d := by
  rw [lookupFw_append, h]

/-- `init_state`'s scan only appends: the manifest it produces extends the
one it was given. -/
theorem initScan_eq_append (m : Manifest) (listing : List DirEntry) :
    ∃ ext, initScan m listing = m ++ ext := by
  induction listing generalizing m with
  | nil => exact ⟨[], (List.append_nil m).symm⟩
  | cons e rest ih =>
      by_cases hq : (e.dir && !(e.name.startsWith ".")) = true
      · by_cases hp : (lookupFw m e.name).isSome
        · simpa [initScan, hq, hp] using ih m
        · obtain ⟨ext, hext⟩ := ih (m ++ [(e.name, newEntry e.name)])
          exact ⟨(e.name, newEntry e.name) :: ext, by
            simpa [initScan, hq, hp, List.append_assoc] using hext⟩
      · simpa [initScan, hq] using ih m

theorem lookupFw_initScan_of_some (m : Manifest) (listing : List DirEntry)
    (n : String) (d : FrameworkState) (h : lookupFw m n = some d) :
    lookupFw (initScan m listing) n = some d := by
  obtain ⟨ext, hext⟩ := initScan_eq_append m listing
  rw [hext]
  exact lookupFw_append_left m ext n d h

theorem lookupFw_initScan_isSome (m : Manifest) (listing : List DirEntry)
    (n : String) (h : (lookupFw m n).isSome) :
    (lookupFw (initScan m listing) n).isSome := by
  obtain ⟨d, hd⟩ := Option.isSome_iff_exists.mp h
  rw [lookupFw_initScan_of_some m listing n d hd]
  rfl

/-- After one scan, every qualifying entry of the listing is a key. -/
theorem initScan_covers (listing : List DirEntry) (m : Manifest)
    (e : DirEntry) (he : e ∈ listing)
    (hq : (e.dir && !(e.name.startsWith ".")) = true) :
    (lookupFw (initScan m listing) e.name).isSome := by
  induction listing generalizing m with
  | nil => cases he
  | cons a rest ih =>
      rcases List.mem_cons.mp he with rfl | hmem
      · by_cases hp : (lookupFw m e.name).isSome
        · rw [initScan, if_pos hq, if_pos hp]
          exact lookupFw_initScan_isSome m rest e.name hp
        · rw [initScan, if_pos hq, if_neg hp]
          apply lookupFw_initScan_isSome
          rw [lookupFw_append]
          cases hl : lookupFw m e.name with
          | some d => simp [hl] at hp
          | none => simp [lookupFw]
      · by_cases hq' : (a.dir && !(a.name.startsWith ".")) = true
        · by_cases hp : (lookupFw m a.name).isSome
          · rw [initScan, if_pos hq', if_pos hp]; exact ih m hmem
          · rw [initScan, if_pos hq', if_neg hp]; exact ih _ hmem
        · rw [initScan, if_neg hq']; exact ih m hmem

/-- A scan whose qualifying entries are all already keys changes nothing. -/
theorem initScan_of_covered (listing : List DirEntry) (m : Manifest)
    (h : ∀ e ∈ listing, (e.dir && !(e.name.startsWith ".")) = true →
      (lookupFw m e.name).isSome) :
    initScan m listing = m := by
  induction listing generalizing m with
  | nil => rfl
  | cons a rest ih =>
      by_cases hq : (a.dir && !(a.name.startsWith ".")) = true
      · rw [initScan, if_pos hq, if_pos (h a (List.mem_cons_self a rest) hq)]
        exact ih m fun e he hqe => h e (List.mem_cons_of_mem a he) hqe
      · rw [initScan, if_neg hq]
        exact ih m fun e he hqe => h e (List.mem_cons_of_mem a he) hqe

theorem initScan_idem (m : Manifest) (listing : List DirEntry) :
    initScan (initScan m listing) listing = initScan m listing :=
  initScan_of_covered listing (initScan m listing)
    fun e he hq => initScan_covers listing m e he hq

/-- C6: discovery is idempotent. Running the scan twice over an unchanged
source-root listing equals running it once, for every starting manifest;
and at the command level, two `init` invocations on an unchanged root
leave the persisted file exactly as one invocation does. -/
theorem c6_init_idempotent (listing : List DirEntry) (m : Manifest)
    (fs : FileState) :
    initScan (initScan m listing) listing = initScan m listing ∧
    run fs [Cmd.init (some listing), Cmd.init (some listing)] =
      run fs [Cmd.init (some listing)] := by
  refine ⟨initScan_idem m listing, ?_⟩
  show run (step fs _) [Cmd.init (some listing)] = run (step fs _) []
  show run (step (step fs _) _) [] = _
  unfold step init_state
  cases hload : loadManifest fs with
  | none => simp [run, step, init_state, hload]
  | some m0 =>
      simp only [hload, run, step, init_state, load_save]
      rw [initScan_idem]

/-- C7: discovery never removes an existing manifest entry and never
changes an existing entry's record (status and path both preserved, even
when the entry's source directory is gone from the listing or when it is
re-discovered); the key sequence of the old manifest survives in order. -/
theorem c7_init_preserves_entries (listing : List DirEntry) (m : Manifest) :
    (∀ n d, lookupFw m n = some d →
        lookupFw (initScan m listing) n = some d) ∧
    (m.map Prod.fst).Sublist ((initScan m listing).map Prod.fst) := by
  refine ⟨fun n d h => lookupFw_initScan_of_some m listing n d h, ?_⟩
  obtain ⟨ext, hext⟩ := initScan_eq_append m listing
  rw [hext, List.map_append]
  exact List.sublist_append_left _ _

/-! ## Recovery sweep: `reset-running` -/

theorem reset_fst (m : Manifest) (dirs : List String) :
    (reset_in_progress m dirs).1 =
      m.map fun p =>
        if p.2.status = Status.inProgress.value then
          (p.1, { p.2 with status := Status.pending.value })
        else p := by
  induction m with
  | nil => rfl
  | cons p rest ih =>
      cases p with
      | mk n d =>
          by_cases h : d.status = Status.inProgress.value <;>
            simp [reset_in_progress, h, ih]

theorem reset_count (m : Manifest) (dirs : List String) :
    (reset_in_progress m dirs).2.1 =
      m.countP fun p => p.2.status == Status.inProgress.value := by
  induction m with
  | nil => rfl
  | cons p rest ih =>
      cases p with
      | mk n d =>
          by_cases h : d.status = Status.inProgress.value <;>
            simp [reset_in_progress, h, ih, List.countP_cons]

/-- C1: the recovery sweep turns exactly the `in_progress` units to
`pending` and leaves every other unit's name, status and path untouched
(positionally, by the map characterisation); afterwards no unit is
`in_progress`; the reported count is the number of units that were
`in_progress`, so with zero such units it reports zero and is a no-op on
the manifest; and the manifest result and count do not depend on which
per-unit output directories exist, so an absent directory cannot fail the
sweep. -/
theorem c1_reset_running_spec (m : Manifest) (dirs : List String) :
    (reset_in_progress m dirs).1 =
      (m.map fun p =>
        if p.2.status = Status.inProgress.value then
          (p.1, { p.2 with status := Status.pending.value })
        else p) ∧
    (∀ p ∈ (reset_in_progress m dirs).1,
      p.2.status ≠ Status.inProgress.value) ∧
    (reset_in_progress m dirs).2.1 =
      (m.countP fun p => p.2.status == Status.inProgress.value) ∧
    ((m.countP fun p => p.2.status == Status.inProgress.value) = 0 →
      (reset_in_progress m dirs).1 = m ∧ (reset_in_progress m dirs).2.1 = 0) ∧
    (reset_in_progress m dirs).1 = (reset_in_progress m []).1 ∧
    (reset_in_progress m dirs).2.1 = (reset_in_progress m []).2.1 := by
  refine ⟨reset_fst m dirs, ?_, reset_count m dirs, ?_, ?_, ?_⟩
  · intro p hp
    rw [reset_fst] at hp
    obtain ⟨q, _, hq⟩ := List.mem_map.mp hp
    by_cases h : q.2.status = Status.inProgress.value
    · rw [if_pos h] at hq
      rw [← hq]
      show Status.pending.value ≠ Status.inProgress.value
      decide
    · rw [if_neg h] at hq
      rw [← hq]
      exact h
  · intro hzero
    refine ⟨?_, by rw [reset_count, hzero]⟩
    rw [reset_fst]
    have hnone := List.countP_eq_zero.mp hzero
    calc (m.map fun p =>
          if p.2.status = Status.inProgress.value then
            (p.1, { p.2 with status := Status.pending.value })
          else p)
        = m.map id := by
          apply List.map_congr_left
          intro p hp
          have := hnone p hp
          simp only [beq_iff_eq] at this
          rw [if_neg this]
          rfl
      _ = m := List.map_id m
  · rw [reset_fst, reset_fst]
  · rw [reset_count, reset_count]

/-! ## Status mutator: `mark` -/

theorem lookupFw_setStatus_self (m : Manifest) (fw st : String) :
    lookupFw (setStatus m fw st) fw =
      (lookupFw m fw).map fun d => { d with status := st } := by
  induction m with
  | nil => rfl
  | cons p rest ih =>
      cases p with
      | mk n d =>
          by_cases h : n = fw
          · subst h
            simp [setStatus, lookupFw]
          · simp [setStatus, lookupFw, h, ih]

theorem lookupFw_setStatus_other (m : Manifest) (fw st n : String)
    (h : n ≠ fw) :
    lookupFw (setStatus m fw st) n = lookupFw m n := by
  induction m with
  | nil => rfl
  | cons p rest ih =>
      cases p with
      | mk k d =>
          simp only [setStatus]
          by_cases hk : k = fw
          · rw [if_pos hk]
            have hkn : ¬ (k = n) := fun he => h (by rw [← he]; exact hk)
            simp only [lookupFw, if_neg hkn]
          · rw [if_neg hk]
            simp only [lookupFw]
            by_cases hkn : k = n
            · rw [if_pos hkn, if_pos hkn]
            · rw [if_neg hkn, if_neg hkn]
              exact ih

theorem setStatus_keys (m : Manifest) (fw st : String) :
    (setStatus m fw st).map Prod.fst = m.map Prod.fst := by
  induction m with
  | nil => rfl
  | cons p rest ih =>
      cases p with
      | mk k d => by_cases hk : k = fw <;> simp [setStatus, hk, ih]

theorem markCmd_on_save (m : Manifest) (fw st : String) :
    markCmd (save_manifest m) fw st =
      match mark_status m fw st with
      | .error _ => (save_manifest m, false)
      | .ok updated => (save_manifest updated, true) := by
  rw [markCmd, load_save]

/-- C2: `mark` fails exactly when the name is not a key of the manifest or
the status string is not one of the four recognized values; on failure the
persisted file is unchanged; on success the persisted file holds the
manifest with exactly the named unit's status overwritten — its path, and
every other unit's entry, and the key sequence, unchanged. -/
theorem c2_mark_spec (m : Manifest) (fw st : String) :
    ((markCmd (save_manifest m) fw st).2 = false ↔
      (lookupFw m fw = none ∨ statusValues.contains st = false)) ∧
    ((markCmd (save_manifest m) fw st).2 = false →
      (markCmd (save_manifest m) fw st).1 = save_manifest m) ∧
    ((markCmd (save_manifest m) fw st).2 = true →
      (markCmd (save_manifest m) fw st).1 =
        save_manifest (setStatus m fw st)) ∧
    lookupFw (setStatus m fw st) fw =
      ((lookupFw m fw).map fun d => { d with status := st }) ∧
    (∀ n, n ≠ fw → lookupFw (setStatus m fw st) n = lookupFw m n) ∧
    (setStatus m fw st).map Prod.fst = m.map Prod.fst := by
  rw [markCmd_on_save]
  by_cases hn : lookupFw m fw = none
  · rw [mark_status, if_pos (Option.isNone_iff_eq_none.mpr hn)]
    exact ⟨by simp [hn], fun _ => rfl, by simp,
      lookupFw_setStatus_self m fw st,
      fun n hne => lookupFw_setStatus_other m fw st n hne,
      setStatus_keys m fw st⟩
  · rw [mark_status, if_neg (fun h => hn (Option.isNone_iff_eq_none.mp h))]
    by_cases hs : statusValues.contains st = false
    · rw [if_pos (by rw [hs]; rfl)]
      have hs2 : st ∉ statusValues := by simpa using hs
      exact ⟨by simp [hn, hs2], fun _ => rfl, by simp,
        lookupFw_setStatus_self m fw st,
        fun n hne => lookupFw_setStatus_other m fw st n hne,
        setStatus_keys m fw st⟩
    · rw [if_neg (by simpa using hs)]
      have hs2 : st ∈ statusValues := by simpa using hs
      exact ⟨by simp [hn, hs2], by simp, fun _ => rfl,
        lookupFw_setStatus_self m fw st,
        fun n hne => lookupFw_setStatus_other m fw st n hne,
        setStatus_keys m fw st⟩

/-! ## Batch selector: `next` -/

theorem pendingNames_sublist (m : Manifest) :
    (pendingNames m).Sublist (m.map Prod.fst) := by
  induction m with
  | nil => exact List.Sublist.refl []
  | cons p rest ih =>
      cases p with
      | mk n d =>
          by_cases h : d.status = Status.pending.value
          · simpa [pendingNames, h] using ih.cons₂ n
          · simpa [pendingNames, h] using ih.cons n

theorem mem_pendingNames (m : Manifest) (n : String)
    (h : n ∈ pendingNames m) :
    ∃ d, (n, d) ∈ m ∧ d.status = Status.pending.value := by
  induction m with
  | nil => cases h
  | cons p rest ih =>
      cases p with
      | mk k d =>
          by_cases hk : d.status = Status.pending.value
          · rw [pendingNames, if_pos hk] at h
            rcases List.mem_cons.mp h with rfl | hmem
            · exact ⟨d, List.mem_cons_self _ _, hk⟩
            · obtain ⟨d2, hd2, hst⟩ := ih hmem
              exact ⟨d2, List.mem_cons_of_mem _ hd2, hst⟩
          · rw [pendingNames, if_neg hk] at h
            obtain ⟨d2, hd2, hst⟩ := ih h
            exact ⟨d2, List.mem_cons_of_mem _ hd2, hst⟩

theorem lookupFw_eq_of_mem (m : Manifest) (n : String) (d : FrameworkState)
    (hnd : (m.map Prod.fst).Nodup) (hm : (n, d) ∈ m) :
    lookupFw m n = some d := by
  induction m with
  | nil => cases hm
  | cons p rest ih =>
      cases p with
      | mk k d2 =>
          rcases List.mem_cons.mp hm with heq | hmem
          · cases heq
            simp [lookupFw]
          · have hk : ¬ (k = n) := by
              intro hk
              subst hk
              have : k ∈ rest.map Prod.fst :=
                List.mem_map.mpr ⟨(k, d), hmem, rfl⟩
              exact (List.nodup_cons.mp hnd).1 this
            rw [lookupFw, if_neg hk]
            exact ih (List.nodup_cons.mp hnd).2 hmem

theorem get_next_batch_nonneg (m : Manifest) (L : Int) (h : 0 ≤ L) :
    get_next_batch m L = (pendingNames m).take L.toNat := by
  rw [get_next_batch, pySliceTo, if_pos h]

/-- C3: for a nonnegative limit `L`, `next` returns at most `L` names;
every returned name is a key of the manifest whose record's status is
exactly `pending` at call time (manifest keys are unique, as Python dict
keys are); the returned names appear in the manifest's insertion order
(they form a sublist of the key sequence); with no pending units the
result is empty rather than an error; and the `next` command never writes
the manifest file back. -/
theorem c3_next_batch_spec (m : Manifest) (L : Int) (hL : 0 ≤ L)
    (hnd : (m.map Prod.fst).Nodup) :
    (get_next_batch m L).length ≤ L.toNat ∧
    (∀ n ∈ get_next_batch m L,
      ∃ d, lookupFw m n = some d ∧ d.status = Status.pending.value) ∧
    (get_next_batch m L).Sublist (m.map Prod.fst) ∧
    (pendingNames m = [] → get_next_batch m L = []) ∧
    (∀ fs, (nextCmd fs L).1 = fs) := by
  rw [get_next_batch_nonneg m L hL]
  refine ⟨?_, ?_, ?_, ?_, ?_⟩
  · rw [List.length_take]
    exact min_le_left _ _
  · intro n hn
    have hpend : n ∈ pendingNames m := (List.take_subset _ _) hn
    obtain ⟨d, hd, hst⟩ := mem_pendingNames m n hpend
    exact ⟨d, lookupFw_eq_of_mem m n d hnd hd, hst⟩
  · exact (List.take_sublist _ _).trans (pendingNames_sublist m)
  · intro hempty
    rw [hempty, List.take_nil]
  · intro fs
    rw [nextCmd]
    cases loadManifest fs <;> rfl

/-- A three-unit manifest: one unit dispatched, two still pending. -/
def exampleManifestB : Manifest :=
  [("a", ⟨"in_progress", "repos/a"⟩), ("b", ⟨"pending", "repos/b"⟩),
   ("c", ⟨"pending", "repos/c"⟩)]

/-- Witness for C3 at the concrete manifest `exampleManifestB` and
limit 2. -/
theorem c3_witness :
    (0 : Int) ≤ 2 ∧ (exampleManifestB.map Prod.fst).Nodup ∧
    ((get_next_batch exampleManifestB 2).length ≤ (2 : Int).toNat ∧
     (∀ n ∈ get_next_batch exampleManifestB 2,
       ∃ d, lookupFw exampleManifestB n = some d ∧
         d.status = Status.pending.value) ∧
     (get_next_batch exampleManifestB 2).Sublist
       (exampleManifestB.map Prod.fst) ∧
     (pendingNames exampleManifestB = [] →
       get_next_batch exampleManifestB 2 = []) ∧
     (∀ fs, (nextCmd fs 2).1 = fs)) :=
  ⟨by decide, by decide,
    c3_next_batch_spec exampleManifestB 2 (by decide) (by decide)⟩

/-- C10: the CLI parses `--limit` as an arbitrary integer, and
`get_next_batch` applies Python slice semantics `pending[:limit]`: for a
negative limit `L` it returns all pending names except the last `|L|`, so
with more than `|L|` pending units the result is non-empty rather than
bounded by `L`. -/
theorem c10_negative_limit (m : Manifest) (L : Int) (hL : L < 0) :
    get_next_batch m L =
      (pendingNames m).take ((pendingNames m).length - L.natAbs) ∧
    (L.natAbs < (pendingNames m).length → get_next_batch m L ≠ []) := by
  have hneg : ¬ (0 ≤ L) := by omega
  have htn : (-L).toNat = L.natAbs := by omega
  have hbatch : get_next_batch m L =
      (pendingNames m).take ((pendingNames m).length - L.natAbs) := by
    rw [get_next_batch, pySliceTo, if_neg hneg, htn]
  refine ⟨hbatch, ?_⟩
  intro hlt hempty
  rw [hbatch] at hempty
  have hlen := congrArg List.length hempty
  rw [List.length_take] at hlen
  simp only [List.length_nil] at hlen
  omega

/-- Witness for C10 at the concrete manifest `exampleManifestB` and
limit -1: the two pending units minus the last one. -/
theorem c10_witness :
    (-1 : Int) < 0 ∧
    (get_next_batch exampleManifestB (-1) =
      (pendingNames exampleManifestB).take
        ((pendingNames exampleManifestB).length - (-1 : Int).natAbs) ∧
     ((-1 : Int).natAbs < (pendingNames exampleManifestB).length →
       get_next_batch exampleManifestB (-1) ≠ [])) :=
  ⟨by decide, c10_negative_limit exampleManifestB (-1) (by decide)⟩

/-! ## The four-value status invariant -/

theorem validManifest_nil : validManifest [] :=
  fun p hp => absurd hp (List.not_mem_nil p)

theorem validManifest_initScan (m : Manifest) (listing : List DirEntry)
    (h : validManifest m) : validManifest (initScan m listing) := by
  induction listing generalizing m with
  | nil => exact h
  | cons e rest ih =>
      rw [initScan]
      by_cases hq : (e.dir && !(e.name.startsWith ".")) = true
      · rw [if_pos hq]
        by_cases hp : (lookupFw m e.name).isSome
        · rw [if_pos hp]
          exact ih m h
        · rw [if_neg hp]
          apply ih
          intro p hpm
          rcases List.mem_append.mp hpm with h1 | h2
          · exact h p h1
          · have : p = (e.name, newEntry e.name) := by
              simpa using h2
            rw [this]
            show Status.pending.value ∈ statusValues
            decide
      · rw [if_neg hq]
        exact ih m h

theorem validManifest_setStatus (m : Manifest) (fw st : String)
    (h : validManifest m) (hst : st ∈ statusValues) :
    validManifest (setStatus m fw st) := by
  induction m with
  | nil => exact validManifest_nil
  | cons p rest ih =>
      cases p with
      | mk k d =>
          rw [setStatus]
          by_cases hk : k = fw
          · rw [if_pos hk]
            intro q hq
            rcases List.mem_cons.mp hq with rfl | hmem
            · exact hst
            · exact h q (List.mem_cons_of_mem _ hmem)
          · rw [if_neg hk]
            intro q hq
            rcases List.mem_cons.mp hq with rfl | hmem
            · exact h _ (List.mem_cons_self _ _)
            · exact ih (fun r hr => h r (List.mem_cons_of_mem _ hr)) q hmem

theorem validManifest_reset (m : Manifest) (dirs : List String)
    (h : validManifest m) :
    validManifest (reset_in_progress m dirs).1 := by
  rw [reset_fst]
  intro p hp
  obtain ⟨q, hq, hmap⟩ := List.mem_map.mp hp
  by_cases hs : q.2.status = Status.inProgress.value
  · rw [if_pos hs] at hmap
    rw [← hmap]
    show Status.pending.value ∈ statusValues
    decide
  · rw [if_neg hs] at hmap
    rw [← hmap]
    exact h q hq

theorem validFile_save (m : Manifest) (h : validManifest m) :
    validFile (save_manifest m) := by
  intro m2 hm2
  rw [load_save] at hm2
  cases hm2
  exact h

theorem mark_status_ok_valid (m : Manifest) (fw st : String)
    (updated : Manifest) (h : mark_status m fw st = .ok updated)
    (hm : validManifest m) : validManifest updated := by
  rw [mark_status] at h
  by_cases hn : (lookupFw m fw).isNone
  · rw [if_pos hn] at h
    cases h
  · rw [if_neg hn] at h
    by_cases hs : (!(statusValues.contains st)) = true
    · rw [if_pos hs] at h
      cases h
    · rw [if_neg hs] at h
      cases h
      apply validManifest_setStatus m fw st hm
      have : statusValues.contains st = true := by
        cases hc : statusValues.contains st with
        | false => rw [hc] at hs; exact absurd rfl hs
        | true => rfl
      exact List.elem_iff.mp this

theorem init_state_load_some (fs : FileState) (listing : List DirEntry)
    (m : Manifest) (hl : loadManifest fs = some m) :
    init_state (some listing) fs = (save_manifest (initScan m listing), true) := by
  rw [init_state, hl]

theorem init_state_load_none (fs : FileState) (listing : List DirEntry)
    (hl : loadManifest fs = none) :
    init_state (some listing) fs = (fs, false) := by
  rw [init_state, hl]

theorem nextCmd_fst (fs : FileState) (limit : Int) :
    (nextCmd fs limit).1 = fs := by
  rw [nextCmd]
  cases loadManifest fs <;> rfl

theorem markCmd_load_some (fs : FileState) (m : Manifest) (fw st : String)
    (hl : loadManifest fs = some m) :
    markCmd fs fw st =
      match mark_status m fw st with
      | .error _ => (fs, false)
      | .ok updated => (save_manifest updated, true) := by
  rw [markCmd, hl]

theorem markCmd_load_none (fs : FileState) (fw st : String)
    (hl : loadManifest fs = none) :
    markCmd fs fw st = (fs, false) := by
  rw [markCmd, hl]

theorem resetCmd_load_some (fs : FileState) (dirs : List String)
    (m : Manifest) (hl : loadManifest fs = some m) :
    resetCmd fs dirs =
      (save_manifest (reset_in_progress m dirs).1, true) := by
  rw [resetCmd, hl]

theorem resetCmd_load_none (fs : FileState) (dirs : List String)
    (hl : loadManifest fs = none) :
    resetCmd fs dirs = (fs, false) := by
  rw [resetCmd, hl]

theorem validFile_step (fs : FileState) (c : Cmd) (h : validFile fs) :
    validFile (step fs c) := by
  cases c with
  | init root =>
      cases root with
      | none => exact h
      | some listing =>
          show validFile (init_state (some listing) fs).1
          cases hl : loadManifest fs with
          | none => rw [init_state_load_none fs listing hl]; exact h
          | some m =>
              rw [init_state_load_some fs listing m hl]
              exact validFile_save _ (validManifest_initScan m listing (h m hl))
  | next limit =>
      show validFile (nextCmd fs limit).1
      rw [nextCmd_fst]
      exact h
  | mark fw st =>
      show validFile (markCmd fs fw st).1
      cases hl : loadManifest fs with
      | none => rw [markCmd_load_none fs fw st hl]; exact h
      | some m =>
          rw [markCmd_load_some fs m fw st hl]
          cases hmark : mark_status m fw st with
          | error e => exact h
          | ok updated =>
              exact validFile_save _
                (mark_status_ok_valid m fw st updated hmark (h m hl))
  | showStatus => exact h
  | resetRunning dirs =>
      show validFile (resetCmd fs dirs).1
      cases hl : loadManifest fs with
      | none => rw [resetCmd_load_none fs dirs hl]; exact h
      | some m =>
          rw [resetCmd_load_some fs dirs m hl]
          exact validFile_save _ (validManifest_reset m dirs (h m hl))

theorem validFile_run (cmds : List Cmd) (fs : FileState)
    (h : validFile fs) : validFile (run fs cmds) := by
  induction cmds generalizing fs with
  | nil => exact h
  | cons c cs ih => exact ih (step fs c) (validFile_step fs c h)

/-- C9: starting from no state file, after any sequence of `init`, `next`,
`mark`, `status` and `reset-running` invocations, every unit record that
can be loaded from the persisted manifest carries one of the four defined
status strings — `init` writes only `pending`, `mark` validates against
the four values before persisting, `reset-running` writes only `pending`,
and `next`/`status` never persist. -/
theorem c9_only_four_statuses_persisted (cmds : List Cmd) :
    validFile (run FileState.missing cmds) := by
  apply validFile_run
  intro m hm
  have h0 : loadManifest FileState.missing = some [] := rfl
  rw [h0] at hm
  cases hm
  exact validManifest_nil

end StateManager
